import Mathlib

/-!
Shallow embedding of the `clean` whitespace-normalizing command-line utility
(`src/main.go`).  File contents are modelled as `List Char` (one `Char` per
byte), the CLI flags as a `Config` record, standard output as a list of
structured messages, and a file write as an `Option (List Char)` (`none`
meaning the file is not rewritten).
-/

/-- The global flag variables of `main.go` (`-e`, `-c`, `-ts`, `-t`, `-at`, `-h`). -/
structure Config where
  expandTabsFlag : Bool
  contractTabsFlag : Bool
  tabSize : Nat
  trailingNewlineFlag : Bool
  addTrailingNewlineFlag : Bool
  helpFlag : Bool
deriving DecidableEq, Repr

/-- A file as seen by the program: whether `os.Stat` reports a regular file,
and its byte contents (a byte `b` is modelled as the character of code `b`). -/
structure FileState where
  regular : Bool
  contents : List Char
deriving DecidableEq, Repr

/-- `isText` (main.go:16-27): read up to 1024 bytes; the file is text unless
some byte among them is greater than `0x7e` or less than `0x09`. -/
def isText (contents : List Char) : Bool :=
  (contents.take 1024).all fun c =>
    if 0x7e < c.toNat ∨ c.toNat < 0x09 then false else true

/-- Loop body of `expandTabs` (main.go:29-40): the `start` flag is true while
we are still inside the leading run; each leading tab becomes `ts` spaces, and
the first non-tab character switches `start` off for the rest of the line. -/
def expandTabsAux (ts : Nat) (start : Bool) : List Char → List Char
  | [] => []
  | c :: cs =>
      if start ∧ c = '\t' then
        List.replicate ts ' ' ++ expandTabsAux ts start cs
      else
        c :: expandTabsAux ts false cs

/-- `expandTabs` (main.go:29-40) with tab size `ts`. -/
def expandTabs (ts : Nat) (str : List Char) : List Char :=
  expandTabsAux ts true str

/-- `chompTab` (main.go:42-52): if the string is at least `ts` long and starts
with `ts` spaces, drop them; otherwise return it unchanged. -/
def chompTab (ts : Nat) (str : List Char) : List Char :=
  if str.length < ts then str
  else if str.take ts = List.replicate ts ' ' then str.drop ts
  else str

/-- The `for` loop of `contractTabs` (main.go:54-66), written with explicit
fuel: repeatedly `chompTab`, counting the iterations that shortened the
string, and stop at the first iteration that leaves the length unchanged.
Returns the number of chomped runs and the remaining string. -/
def contractTabsAux (ts : Nat) : Nat → List Char → Nat × List Char
  | 0, str => (0, str)
  | fuel + 1, str =>
      let str2 := chompTab ts str
      if str2.length = str.length then (0, str)
      else
        let r := contractTabsAux ts fuel str2
        (r.1 + 1, r.2)

/-- `contractTabs` (main.go:54-66): chomp leading `ts`-space runs while
possible, then prepend one tab per chomped run.  `str.length + 1` units of
fuel always suffice since every productive iteration shortens the string. -/
def contractTabs (ts : Nat) (str : List Char) : List Char :=
  let r := contractTabsAux ts (str.length + 1) str
  List.replicate r.1 '\t' ++ r.2

/-- `strings.TrimRight(str, " \t")` as used in `cleanFile` (main.go:111):
remove the trailing run of spaces and tabs. -/
def trimRight (str : List Char) : List Char :=
  (str.reverse.dropWhile fun c => c = ' ' ∨ c = '\t').reverse

/-- `strings.Split(contents, "\n", -1)` (main.go:94): split on every newline
character; always returns at least one (possibly empty) piece. -/
def splitNl : List Char → List (List Char)
  | [] => [[]]
  | c :: cs =>
      let r := splitNl cs
      if c = '\n' then [] :: r
      else (c :: r.headI) :: r.tail

/-- `removeTrailingNewlines` (main.go:68-79): count the empty lines at the end
of the list and cut them off. -/
def removeTrailingNewlines (lines : List (List Char)) : List (List Char) :=
  let empties := (lines.reverse.takeWhile fun l => l = []).length
  lines.take (lines.length - empties)

/-- The per-line body of the loop in `cleanFile` (main.go:110-131): trim
trailing whitespace, then apply the selected conversion (the `switch` tries
`-c` before `-e`).  Returns the transformed line, whether the line counts as
trimmed (its length decreased), and whether it counts as tab-adjusted (the
conversion changed its length). -/
def cleanLine (cfg : Config) (str : List Char) : List Char × Bool × Bool :=
  let ts := trimRight str
  let trimmedFlag := decide (ts.length < str.length)
  let lts := ts.length
  if cfg.contractTabsFlag then
    let ts2 := contractTabs cfg.tabSize ts
    (ts2, trimmedFlag, decide (ts2.length ≠ lts))
  else if cfg.expandTabsFlag then
    let ts2 := expandTabs cfg.tabSize ts
    (ts2, trimmedFlag, decide (ts2.length ≠ lts))
  else
    (ts, trimmedFlag, false)

/-- Accumulator step for the output loop of `cleanFile` (main.go:109-131):
running counts of trimmed and tab-adjusted lines and the output built so far,
to which the cleaned line plus a newline is appended. -/
def cleanStep (cfg : Config) (acc : Nat × Nat × List Char) (str : List Char) :
    Nat × Nat × List Char :=
  let r := cleanLine cfg str
  (acc.1 + (if r.2.1 then 1 else 0),
   acc.2.1 + (if r.2.2 then 1 else 0),
   acc.2.2 ++ r.1 ++ ['\n'])

/-- `cleanFile` (main.go:81-134): an empty file returns immediately with zero
counts and no write; otherwise the final newline is chomped, the contents are
split into lines, the `-at` and `-t` policies adjust the line list, each line
is trimmed and converted, and the output (each line followed by a newline) is
written back.  Returns (trimmed count, tab-adjusted count, written contents). -/
def cleanFile (cfg : Config) (contents : List Char) : Nat × Nat × Option (List Char) :=
  if contents = [] then (0, 0, none)
  else
    let body := if contents.getLast? = some '\n' then contents.dropLast else contents
    let lines0 := splitNl body
    let lines1 :=
      if cfg.addTrailingNewlineFlag ∧ lines0.getLast? ≠ some [] then lines0 ++ [[]]
      else lines0
    let lines2 := if cfg.trailingNewlineFlag then removeTrailingNewlines lines1 else lines1
    let r := lines2.foldl (cleanStep cfg) (0, 0, [])
    (r.1, r.2.1, some r.2.2)

/-- The status lines the program prints, as structured messages. -/
inductive Msg where
  | couldntClean (fn : String)
  | didntCleanBinary (fn : String)
  | addedTrailingNewline
  | removedTrailingNewlines
  | fixed (fn : String) (trims tabs : Nat)
  | usage
  | cantContractAndExpand
  | noFilesToWorkOn
deriving DecidableEq, Repr

/-- Result of processing one file: the two counters, the write performed on
the file (if any), and the messages printed for it. -/
structure ProcResult where
  trims : Nat
  tabs : Nat
  write : Option (List Char)
  msgs : List Msg
deriving DecidableEq, Repr

/-- `processFile` (main.go:162-173): a non-regular file is reported and
skipped; a text file is cleaned; a binary file is reported and never
rewritten. -/
def processFile (cfg : Config) (fn : String) (fs : FileState) : ProcResult :=
  if fs.regular = false then ⟨0, 0, none, [.couldntClean fn]⟩
  else if isText fs.contents then
    let r := cleanFile cfg fs.contents
    ⟨r.1, r.2.1, r.2.2, []⟩
  else ⟨0, 0, none, [.didntCleanBinary fn]⟩

/-- Result of a whole run: exit status, printed messages, and the write (if
any) performed on each file, in order. -/
structure MainResult where
  exitCode : Nat
  output : List Msg
  writes : List (Option (List Char))
deriving DecidableEq, Repr

/-- `main` (main.go:175-199): `-h` prints usage and exits 0; both `-e` and
`-c` set is a fatal conflict (exit 1) before any file is touched; no file
arguments prints a notice and exits 0; otherwise each file is processed, its
modifications logged, and an aggregate line is printed at the end. -/
def mainRun (cfg : Config) (files : List (String × FileState)) : MainResult :=
  if cfg.helpFlag then ⟨0, [.usage], []⟩
  else if cfg.contractTabsFlag ∧ cfg.expandTabsFlag then
    ⟨1, [.cantContractAndExpand], []⟩
  else if files = [] then ⟨0, [.noFilesToWorkOn], []⟩
  else
    let results := files.map fun p => (p.1, processFile cfg p.1 p.2)
    let perFile := results.foldl
      (fun acc p => acc ++ p.2.msgs ++ [.fixed p.1 p.2.trims p.2.tabs]) []
    let trims := (results.map fun p => p.2.trims).sum
    let tabs := (results.map fun p => p.2.tabs).sum
    ⟨0, perFile ++ [.fixed "" trims tabs], results.map fun p => p.2.write⟩

/-! ### Lemmas about `chompTab` and `contractTabs` -/

lemma chompTab_length_le (ts : Nat) (str : List Char) :
    (chompTab ts str).length ≤ str.length := by
  unfold chompTab
  split
  · exact le_rfl
  split
  · rw [List.length_drop]; omega
  · exact le_rfl

lemma chompTab_eq_or_lt (ts : Nat) (str : List Char) :
    chompTab ts str = str ∨ (chompTab ts str).length < str.length := by
  unfold chompTab
  split
  · exact Or.inl rfl
  · split
    · rename_i h1 h2
      cases ts with
      | zero => exact Or.inl (by simp)
      | succ n => right; rw [List.length_drop]; omega
    · exact Or.inl rfl

lemma chompTab_spaces (ts : Nat) (s : List Char) :
    chompTab ts (List.replicate ts ' ' ++ s) = s := by
  unfold chompTab
  rw [if_neg (by simp only [List.length_append, List.length_replicate]; omega),
    if_pos (List.take_left' (by simp))]
  exact List.drop_left' (by simp)

lemma chompTab_fixed (ts r : Nat) (rest : List Char) (h1 : r < ts)
    (h2 : rest.head? ≠ some ' ') :
    chompTab ts (List.replicate r ' ' ++ rest) = List.replicate r ' ' ++ rest := by
  unfold chompTab
  split
  · rfl
  split
  · rename_i hlen htake
    exfalso
    cases rest with
    | nil => simp at hlen; omega
    | cons c cs =>
        have hr : r ≤ ts := Nat.le_of_lt h1
        have e1 : List.take ts (List.replicate r ' ' ++ (c :: cs))
            = List.replicate r ' ' ++ List.take (ts - r) (c :: cs) := by
          rw [List.take_append_eq_append_take, List.take_replicate, List.length_replicate,
            Nat.min_eq_right hr]
        have e2 : List.replicate ts ' '
            = List.replicate r ' ' ++ List.replicate (ts - r) ' ' := by
          rw [← List.replicate_add]
          congr 1
          omega
        rw [e1, e2] at htake
        have e3 : List.take (ts - r) (c :: cs) = List.replicate (ts - r) ' ' :=
          List.append_cancel_left htake
        obtain ⟨k, hk⟩ : ∃ k, ts - r = k + 1 := ⟨ts - r - 1, by omega⟩
        rw [hk, List.take_succ_cons, List.replicate_succ] at e3
        have : c = ' ' := by injection e3
        exact h2 (by simp [this])
  · rfl

lemma contractTabsAux_fixed (ts fuel : Nat) (str : List Char)
    (h : chompTab ts str = str) : contractTabsAux ts fuel str = (0, str) := by
  cases fuel with
  | zero => rfl
  | succ f => simp [contractTabsAux, h]

lemma contractTabsAux_spaces (ts : Nat) (hts : 1 ≤ ts) (stop : List Char)
    (hstop : chompTab ts stop = stop) :
    ∀ k fuel, k ≤ fuel →
      contractTabsAux ts fuel (List.replicate (k * ts) ' ' ++ stop) = (k, stop) := by
  intro k
  induction k with
  | zero =>
      intro fuel _
      simpa using contractTabsAux_fixed ts fuel stop hstop
  | succ k ih =>
      intro fuel hf
      obtain ⟨f, rfl⟩ : ∃ f, fuel = f + 1 := ⟨fuel - 1, by omega⟩
      have estr : List.replicate ((k + 1) * ts) ' ' ++ stop
          = List.replicate ts ' ' ++ (List.replicate (k * ts) ' ' ++ stop) := by
        rw [← List.append_assoc, ← List.replicate_add]
        congr 2
        ring
      have hch := chompTab_spaces ts (List.replicate (k * ts) ' ' ++ stop)
      have hne : ¬ ((List.replicate (k * ts) ' ' ++ stop).length
          = (List.replicate ts ' ' ++ (List.replicate (k * ts) ' ' ++ stop)).length) := by
        simp only [List.length_append, List.length_replicate]
        omega
      rw [estr]
      simp only [contractTabsAux, hch, if_neg hne, ih f (by omega)]

lemma contractTabs_spaces (ts : Nat) (hts : 1 ≤ ts) (k : Nat) (stop : List Char)
    (hstop : chompTab ts stop = stop) :
    contractTabs ts (List.replicate (k * ts) ' ' ++ stop)
      = List.replicate k '\t' ++ stop := by
  have hk : k ≤ (List.replicate (k * ts) ' ' ++ stop).length + 1 := by
    have : k ≤ k * ts := Nat.le_mul_of_pos_right k hts
    simp only [List.length_append, List.length_replicate]
    omega
  simp only [contractTabs, contractTabsAux_spaces ts hts stop hstop k _ hk]

/-! ### Lemmas about `expandTabs` -/

lemma expandTabsAux_false (ts : Nat) (l : List Char) :
    expandTabsAux ts false l = l := by
  induction l with
  | nil => rfl
  | cons c cs ih => simp [expandTabsAux, ih]

lemma expandTabsAux_true_of_ne (ts : Nat) (l : List Char) (h : l.head? ≠ some '\t') :
    expandTabsAux ts true l = l := by
  cases l with
  | nil => rfl
  | cons c cs =>
      have hc : ¬ (c = '\t') := fun e => h (by simp [e])
      simp [expandTabsAux, hc, expandTabsAux_false]

lemma expandTabs_replicate (ts k : Nat) (rest : List Char) (h : rest.head? ≠ some '\t') :
    expandTabs ts (List.replicate k '\t' ++ rest)
      = List.replicate (k * ts) ' ' ++ rest := by
  induction k with
  | zero => simpa [expandTabs] using expandTabsAux_true_of_ne ts rest h
  | succ k ih =>
      rw [List.replicate_succ, List.cons_append]
      have step : expandTabsAux ts true ('\t' :: (List.replicate k '\t' ++ rest))
          = List.replicate ts ' ' ++ expandTabsAux ts true (List.replicate k '\t' ++ rest) := by
        rw [expandTabsAux, if_pos ⟨rfl, rfl⟩]
      show expandTabsAux ts true ('\t' :: (List.replicate k '\t' ++ rest)) = _
      rw [step, show expandTabsAux ts true (List.replicate k '\t' ++ rest)
          = List.replicate (k * ts) ' ' ++ rest from ih,
        ← List.append_assoc, ← List.replicate_add]
      congr 2
      ring

/-! ### Lemmas about `trimRight` -/

lemma dropWhile_self_idem (p : Char → Bool) (l : List Char) :
    (l.dropWhile p).dropWhile p = l.dropWhile p := by
  induction l with
  | nil => rfl
  | cons c cs ih =>
      by_cases h : p c
      · simp [List.dropWhile_cons, h, ih]
      · simp [List.dropWhile_cons, h]

lemma trimRight_idem (s : List Char) : trimRight (trimRight s) = trimRight s := by
  unfold trimRight
  rw [List.reverse_reverse, dropWhile_self_idem]

lemma contractTabsAux_fuel (ts : Nat) :
    ∀ f₁ str f₂, str.length < f₁ → str.length < f₂ →
      contractTabsAux ts f₁ str = contractTabsAux ts f₂ str := by
  intro f₁
  induction f₁ with
  | zero => intro str f₂ h1 _; exact absurd h1 (by omega)
  | succ g ih =>
      intro str f₂ h1 h2
      obtain ⟨h, rfl⟩ : ∃ h, f₂ = h + 1 := ⟨f₂ - 1, by omega⟩
      rcases chompTab_eq_or_lt ts str with heq | hlt
      · rw [contractTabsAux_fixed ts _ str heq, contractTabsAux_fixed ts _ str heq]
      · have hne : ¬ ((chompTab ts str).length = str.length) := by omega
        simp only [contractTabsAux, if_neg hne]
        rw [ih (chompTab ts str) h (by omega) (by omega)]

/-- C1: with `-e -ts 4` on a file whose lines are "foo\t\t", "    bar" and
"baz  ", the rewritten contents are "foo\n    bar\nbaz\n" (the trailing tabs
and spaces are trimmed, the leading spaces kept) and the trimmed-lines count
is 2, in particular at least 1. -/
theorem expand_scenario_foo_bar_baz :
    cleanFile ⟨true, false, 4, false, false, false⟩ "foo\t\t\n    bar\nbaz  \n".toList
      = (2, 0, some "foo\n    bar\nbaz\n".toList) ∧
    1 ≤ (cleanFile ⟨true, false, 4, false, false, false⟩ "foo\t\t\n    bar\nbaz  \n".toList).1 := by
  constructor <;> decide

/-- C2 (counterexample): at tab size 0 the round trip fails on the line "\t",
whose leading whitespace is a single tab: expanding replaces the tab by zero
spaces and contracting cannot restore it. -/
theorem roundtrip_fails_at_tabsize_zero :
    contractTabs 0 (expandTabs 0 "\t".toList) ≠ "\t".toList := by
  decide

/-- C2 (amended): for every POSITIVE tab size and every line whose leading
whitespace consists solely of tab characters (after them the line starts with
neither a space nor a tab), expanding and then contracting with the same tab
size restores the original line. -/
theorem expand_contract_roundtrip (ts k : Nat) (rest : List Char)
    (hts : 1 ≤ ts) (hsp : rest.head? ≠ some ' ') (htb : rest.head? ≠ some '\t') :
    contractTabs ts (expandTabs ts (List.replicate k '\t' ++ rest))
      = List.replicate k '\t' ++ rest := by
  rw [expandTabs_replicate ts k rest htb]
  have hstop : chompTab ts rest = rest := by
    have h0 := chompTab_fixed ts 0 rest hts hsp
    simpa using h0
  exact contractTabs_spaces ts hts k rest hstop

theorem expand_contract_roundtrip_witness :
    contractTabs 4 (expandTabs 4 (List.replicate 2 '\t' ++ ['x']))
      = List.replicate 2 '\t' ++ ['x'] :=
  expand_contract_roundtrip 4 2 ['x'] (by decide) (by decide) (by decide)

/-- C3: the classifier returns text iff every one of the first up-to-1024
bytes lies in [0x09, 0x7e]; the empty file is text; and a regular file with a
byte below 0x09 or at or above 0x7f among its first 1024 bytes is reported as
binary and never rewritten. -/
theorem text_classifier_spec :
    (∀ contents : List Char, isText contents = true ↔
      ∀ c ∈ contents.take 1024, 0x09 ≤ c.toNat ∧ c.toNat ≤ 0x7e) ∧
    isText [] = true ∧
    (∀ (cfg : Config) (fn : String) (fs : FileState), fs.regular = true →
      (∃ c ∈ fs.contents.take 1024, c.toNat < 0x09 ∨ 0x7f ≤ c.toNat) →
      (processFile cfg fn fs).write = none ∧
      (processFile cfg fn fs).msgs = [Msg.didntCleanBinary fn]) := by
  have hiff : ∀ contents : List Char, isText contents = true ↔
      ∀ c ∈ contents.take 1024, 0x09 ≤ c.toNat ∧ c.toNat ≤ 0x7e := by
    intro contents
    rw [isText, List.all_eq_true]
    constructor
    · intro h c hc
      have hcthis := h c hc
      by_cases hcond : 0x7e < c.toNat ∨ c.toNat < 0x09
      · rw [if_pos hcond] at hcthis
        exact absurd hcthis (by simp)
      · omega
    · intro h c hc
      have hb := h c hc
      rw [if_neg (by omega)]
  refine ⟨hiff, rfl, ?_⟩
  intro cfg fn fs hreg hbad
  have hnottext : ¬ (isText fs.contents = true) := by
    intro ht
    rcases hbad with ⟨c, hc, hrange⟩
    have hr := (hiff fs.contents).mp ht c hc
    omega
  rw [processFile, if_neg (by simp [hreg]), if_neg hnottext]
  exact ⟨rfl, rfl⟩

theorem text_classifier_spec_witness :
    (processFile ⟨false, false, 4, false, false, false⟩ "f" ⟨true, ['\x00']⟩).write = none ∧
    (processFile ⟨false, false, 4, false, false, false⟩ "f" ⟨true, ['\x00']⟩).msgs
      = [Msg.didntCleanBinary "f"] :=
  text_classifier_spec.2.2 ⟨false, false, 4, false, false, false⟩ "f" ⟨true, ['\x00']⟩
    rfl ⟨'\x00', by decide, by decide⟩

/-- C4: contract mode strips k leading runs of exactly ts spaces, prepends k
tab characters, and stops at a remaining run of r < ts spaces, which is left
in place (k = 0 covers a line with one short leading run, left untouched);
with `-c -ts 4` the line of 8 spaces followed by "x" becomes "\t\tx" and the
tab-adjusted flag is set for it (while the trimmed flag is not). -/
theorem contract_mode_spec (ts k r : Nat) (rest : List Char)
    (h1 : r < ts) (h2 : rest.head? ≠ some ' ') :
    contractTabs ts (List.replicate (k * ts + r) ' ' ++ rest)
      = List.replicate k '\t' ++ (List.replicate r ' ' ++ rest) ∧
    cleanLine ⟨false, true, 4, false, false, false⟩ "        x".toList
      = ("\t\tx".toList, false, true) := by
  constructor
  · rw [List.replicate_add, List.append_assoc]
    exact contractTabs_spaces ts (by omega) k _ (chompTab_fixed ts r rest h1 h2)
  · decide

theorem contract_mode_spec_witness :
    contractTabs 4 (List.replicate (2 * 4 + 0) ' ' ++ ['x'])
      = List.replicate 2 '\t' ++ (List.replicate 0 ' ' ++ ['x']) :=
  (contract_mode_spec 4 2 0 ['x'] (by decide) (by decide)).1

/-- C6 (counterexample): when `-h` is also set, a run with both `-e` and `-c`
prints usage and exits 0: the conflict message is not printed and the exit
status is not 1. -/
theorem conflict_skipped_under_help :
    (mainRun ⟨true, true, 4, false, false, true⟩ [("f", ⟨true, ['a']⟩)]).exitCode = 0 ∧
    (mainRun ⟨true, true, 4, false, false, true⟩ [("f", ⟨true, ['a']⟩)]).output.count
      Msg.cantContractAndExpand = 0 := by
  constructor <;> rfl

/-- C6 (amended): if both `-e` and `-c` are set and `-h` is not, the run
exits with status 1 having printed exactly the conflict message once and
performed no read, classification or write on any file. -/
theorem conflict_exits_one (cfg : Config) (files : List (String × FileState))
    (he : cfg.expandTabsFlag = true) (hc : cfg.contractTabsFlag = true)
    (hh : cfg.helpFlag = false) :
    mainRun cfg files = ⟨1, [Msg.cantContractAndExpand], []⟩ := by
  rw [mainRun, if_neg (by simp [hh]), if_pos ⟨hc, he⟩]

theorem conflict_exits_one_witness :
    mainRun ⟨true, true, 4, false, false, false⟩ [("f", ⟨true, ['a']⟩)]
      = ⟨1, [Msg.cantContractAndExpand], []⟩ :=
  conflict_exits_one ⟨true, true, 4, false, false, false⟩ [("f", ⟨true, ['a']⟩)]
    rfl rfl rfl

/-- C7: trimming trailing spaces and tabs is idempotent, and a line is
counted as trimmed exactly when trimming decreased its length. -/
theorem trim_idempotent_and_counted (cfg : Config) (s : List Char) :
    trimRight (trimRight s) = trimRight s ∧
    ((cleanLine cfg s).2.1 = true ↔ (trimRight s).length < s.length) := by
  refine ⟨trimRight_idem s, ?_⟩
  unfold cleanLine
  split
  · simp
  split
  · simp
  · simp

/-- C8: each `chompTab` call either leaves the string unchanged (so the loop
exits) or strictly shortens it; hence the contraction loop terminates, i.e.
its fuel-indexed unfolding is independent of the fuel once the fuel exceeds
the string length. -/
theorem contraction_terminates (ts : Nat) (str : List Char) :
    (chompTab ts str = str ∨ (chompTab ts str).length < str.length) ∧
    ∀ f₁ f₂, str.length < f₁ → str.length < f₂ →
      contractTabsAux ts f₁ str = contractTabsAux ts f₂ str :=
  ⟨chompTab_eq_or_lt ts str, fun f₁ f₂ h1 h2 => contractTabsAux_fuel ts f₁ str f₂ h1 h2⟩

theorem contraction_terminates_witness :
    contractTabsAux 4 10 "        x".toList = contractTabsAux 4 42 "        x".toList :=
  (contraction_terminates 4 "        x".toList).2 10 42 (by decide) (by decide)

/-- C9: an empty file is classified as text, yet `cleanFile` returns at once
with both counters zero and no write, whatever the flags; `processFile`
therefore leaves an empty regular file untouched and prints nothing for it. -/
theorem empty_file_untouched (cfg : Config) (fn : String) :
    isText [] = true ∧ cleanFile cfg [] = (0, 0, none) ∧
    processFile cfg fn ⟨true, []⟩ = ⟨0, 0, none, []⟩ :=
  ⟨rfl, rfl, rfl⟩

/-! ### The spec-side pipeline (refinement target for the fixed-order claim) -/

/-- Spec 4.3 as worded: the selected leading-whitespace conversion, applied to
an already-trimmed line (contract takes precedence, matching the switch). -/
def convertLine (cfg : Config) (l : List Char) : List Char :=
  if cfg.contractTabsFlag then contractTabs cfg.tabSize l
  else if cfg.expandTabsFlag then expandTabs cfg.tabSize l
  else l

/-- The spec's file pipeline taken literally (4.2-4.5): trailing newline
removed if present, lines split, trailing-newline policy applied first, then
each line trimmed and then converted; a line counts as trimmed when trimming
shortened it and as tab-adjusted when the conversion changed its trimmed
length; the lines are rejoined with a newline separator PLUS one final
trailing newline. -/
def cleanFileSpec (cfg : Config) (contents : List Char) : Nat × Nat × Option (List Char) :=
  if contents = [] then (0, 0, none)
  else
    let body := if contents.getLast? = some '\n' then contents.dropLast else contents
    let lines0 := splitNl body
    let lines1 :=
      if cfg.addTrailingNewlineFlag ∧ lines0.getLast? ≠ some [] then lines0 ++ [[]]
      else lines0
    let lines := if cfg.trailingNewlineFlag then removeTrailingNewlines lines1 else lines1
    let trimmedCount := lines.countP fun l => decide ((trimRight l).length < l.length)
    let tabsCount := lines.countP fun l =>
      decide ((convertLine cfg (trimRight l)).length ≠ (trimRight l).length)
    let output := List.intercalate ['\n'] (lines.map fun l => convertLine cfg (trimRight l)) ++ ['\n']
    (trimmedCount, tabsCount, some output)

/-- The same pipeline with the rejoining read as the code performs it: every
transformed line is followed by one newline (so the output carries a single
final trailing newline whenever at least one line remains, and is empty when
the trailing-newline policy removed every line). -/
def cleanFileSpecPerLine (cfg : Config) (contents : List Char) : Nat × Nat × Option (List Char) :=
  if contents = [] then (0, 0, none)
  else
    let body := if contents.getLast? = some '\n' then contents.dropLast else contents
    let lines0 := splitNl body
    let lines1 :=
      if cfg.addTrailingNewlineFlag ∧ lines0.getLast? ≠ some [] then lines0 ++ [[]]
      else lines0
    let lines := if cfg.trailingNewlineFlag then removeTrailingNewlines lines1 else lines1
    let trimmedCount := lines.countP fun l => decide ((trimRight l).length < l.length)
    let tabsCount := lines.countP fun l =>
      decide ((convertLine cfg (trimRight l)).length ≠ (trimRight l).length)
    let output := ((lines.map fun l => convertLine cfg (trimRight l)).map fun l => l ++ ['\n']).flatten
    (trimmedCount, tabsCount, some output)

lemma cleanLine_eq (cfg : Config) (l : List Char) :
    cleanLine cfg l = (convertLine cfg (trimRight l),
      decide ((trimRight l).length < l.length),
      decide ((convertLine cfg (trimRight l)).length ≠ (trimRight l).length)) := by
  unfold cleanLine convertLine
  split
  · rfl
  split
  · rfl
  · simp

lemma foldl_cleanStep (cfg : Config) (lines : List (List Char)) :
    ∀ (a b : Nat) (out : List Char),
      lines.foldl (cleanStep cfg) (a, b, out)
        = (a + lines.countP (fun l => (cleanLine cfg l).2.1),
           b + lines.countP (fun l => (cleanLine cfg l).2.2),
           out ++ (lines.map fun l => (cleanLine cfg l).1 ++ ['\n']).flatten) := by
  induction lines with
  | nil => intro a b out; simp
  | cons l ls ih =>
      intro a b out
      rw [List.foldl_cons, ih]
      unfold cleanStep
      simp only [List.countP_cons, List.map_cons, List.flatten_cons, Prod.mk.injEq]
      refine ⟨by omega, by omega, ?_⟩
      simp [List.append_assoc]

/-- C5 (counterexample): with `-t` on the file "\n", the trailing-newline
policy removes every line, so the code writes an empty output carrying no
final trailing newline, whereas the spec's literal rejoining (newline
separator plus one final newline) would produce "\n". -/
theorem pipeline_final_newline_fails :
    (cleanFile ⟨false, false, 4, true, false, false⟩ "\n".toList).2.2 = some [] ∧
    cleanFile ⟨false, false, 4, true, false, false⟩ "\n".toList
      ≠ cleanFileSpec ⟨false, false, 4, true, false, false⟩ "\n".toList := by
  constructor <;> decide

/-- C5 (amended): for every text file the transformations run in the spec's
fixed order — trailing-newline policy on the line list first, then per-line
trailing-whitespace trim, then the selected leading-whitespace conversion —
a line counts as tab-adjusted exactly when the conversion changed its length
relative to its trimmed length, and the result is written as every line
followed by a newline (one final trailing newline whenever at least one line
remains; empty output in the corner case where the policy removed all
lines). -/
theorem pipeline_fixed_order (cfg : Config) (contents : List Char) :
    cleanFile cfg contents = cleanFileSpecPerLine cfg contents := by
  unfold cleanFile cleanFileSpecPerLine
  split
  · rfl
  · simp only [foldl_cleanStep, cleanLine_eq, zero_add, List.nil_append, List.map_map]
    rfl

/-! ### Lemmas about `splitNl` and rejoining (for the line-count invariant) -/

lemma splitNl_ne_nil (s : List Char) : splitNl s ≠ [] := by
  cases s with
  | nil => simp [splitNl]
  | cons c cs =>
      simp only [splitNl]
      split <;> simp

lemma splitNl_cons_ne (c : Char) (cs : List Char) (h : ¬ c = '\n') :
    splitNl (c :: cs) = (c :: (splitNl cs).headI) :: (splitNl cs).tail := by
  simp [splitNl, h]

lemma splitNl_cons_nl (cs : List Char) :
    splitNl ('\n' :: cs) = [] :: splitNl cs := by
  simp [splitNl]

lemma splitNl_no_newline (s : List Char) : ∀ l ∈ splitNl s, '\n' ∉ l := by
  induction s with
  | nil =>
      intro l hl
      simp [splitNl] at hl
      simp [hl]
  | cons c cs ih =>
      obtain ⟨m, ms, hm⟩ : ∃ m ms, splitNl cs = m :: ms := by
        cases h : splitNl cs with
        | nil => exact absurd h (splitNl_ne_nil cs)
        | cons m ms => exact ⟨m, ms, rfl⟩
      intro l hl
      by_cases hc : c = '\n'
      · subst hc
        rw [splitNl_cons_nl] at hl
        rcases List.mem_cons.mp hl with rfl | hl2
        · simp
        · exact ih l hl2
      · rw [splitNl_cons_ne c cs hc, hm] at hl
        simp only [List.headI, List.tail_cons] at hl
        rcases List.mem_cons.mp hl with rfl | hl2
        · intro hmem
          rcases List.mem_cons.mp hmem with h1 | h1
          · exact hc h1.symm
          · exact ih m (hm ▸ List.mem_cons_self m ms) h1
        · exact ih l (hm ▸ List.mem_cons_of_mem m hl2)

lemma splitNl_append (l rest : List Char) (h : '\n' ∉ l) :
    splitNl (l ++ '\n' :: rest) = l :: splitNl rest := by
  induction l with
  | nil => simpa using splitNl_cons_nl rest
  | cons c cs ih =>
      have hc : ¬ c = '\n' := fun e => h (by simp [e])
      have hcs : '\n' ∉ cs := fun m => h (List.mem_cons_of_mem c m)
      rw [List.cons_append, splitNl_cons_ne c _ hc, ih hcs]
      simp

lemma splitNl_single (l : List Char) (h : '\n' ∉ l) : splitNl l = [l] := by
  induction l with
  | nil => rfl
  | cons c cs ih =>
      have hc : ¬ c = '\n' := fun e => h (by simp [e])
      have hcs : '\n' ∉ cs := fun m => h (List.mem_cons_of_mem c m)
      rw [splitNl_cons_ne c cs hc, ih hcs]
      simp

lemma mem_trimRight (x : Char) (l : List Char) (h : x ∈ trimRight l) : x ∈ l := by
  unfold trimRight at h
  rw [List.mem_reverse] at h
  exact List.mem_reverse.mp ((List.dropWhile_sublist _).subset h)

lemma mem_expandTabsAux (ts : Nat) (x : Char) :
    ∀ (l : List Char) (b : Bool), x ∈ expandTabsAux ts b l → x = ' ' ∨ x ∈ l := by
  intro l
  induction l with
  | nil => intro b h; simp [expandTabsAux] at h
  | cons c cs ih =>
      intro b h
      unfold expandTabsAux at h
      split at h
      · rcases List.mem_append.mp h with h1 | h1
        · exact Or.inl (List.eq_of_mem_replicate h1)
        · rcases ih b h1 with h2 | h2
          · exact Or.inl h2
          · exact Or.inr (List.mem_cons_of_mem c h2)
      · rcases List.mem_cons.mp h with rfl | h1
        · exact Or.inr (List.mem_cons_self _ _)
        · rcases ih false h1 with h2 | h2
          · exact Or.inl h2
          · exact Or.inr (List.mem_cons_of_mem c h2)

lemma mem_chompTab (ts : Nat) (l : List Char) (x : Char) (h : x ∈ chompTab ts l) :
    x ∈ l := by
  unfold chompTab at h
  split at h
  · exact h
  split at h
  · exact (List.drop_sublist _ _).subset h
  · exact h

lemma mem_contractTabsAux (ts : Nat) (x : Char) :
    ∀ (fuel : Nat) (l : List Char), x ∈ (contractTabsAux ts fuel l).2 → x ∈ l := by
  intro fuel
  induction fuel with
  | zero => intro l h; exact h
  | succ f ih =>
      intro l h
      simp only [contractTabsAux] at h
      split at h
      · exact h
      · exact mem_chompTab ts l x (ih _ h)

lemma mem_contractTabs (ts : Nat) (l : List Char) (x : Char)
    (h : x ∈ contractTabs ts l) : x = '\t' ∨ x ∈ l := by
  simp only [contractTabs] at h
  rcases List.mem_append.mp h with h1 | h1
  · exact Or.inl (List.eq_of_mem_replicate h1)
  · exact Or.inr (mem_contractTabsAux ts x _ l h1)

lemma cleanLine_no_newline (cfg : Config) (l : List Char) (h : '\n' ∉ l) :
    '\n' ∉ (cleanLine cfg l).1 := by
  have htrim : '\n' ∉ trimRight l := fun m => h (mem_trimRight _ _ m)
  rw [cleanLine_eq]
  intro hmem
  simp only at hmem
  unfold convertLine at hmem
  split at hmem
  · rcases mem_contractTabs _ _ _ hmem with h1 | h1
    · exact absurd h1 (by decide)
    · exact htrim h1
  · split at hmem
    · rcases mem_expandTabsAux cfg.tabSize '\n' (trimRight l) true hmem with h1 | h1
      · exact absurd h1 (by decide)
      · exact htrim h1
    · exact htrim hmem

lemma flattenNl_ne_nil (M : List (List Char)) (h : M ≠ []) :
    (M.map fun l => l ++ ['\n']).flatten ≠ [] := by
  cases M with
  | nil => exact absurd rfl h
  | cons m ms => simp

lemma flattenNl_getLast (M : List (List Char)) (h : M ≠ []) :
    ((M.map fun l => l ++ ['\n']).flatten).getLast? = some '\n' := by
  induction M with
  | nil => exact absurd rfl h
  | cons m ms ih =>
      cases ms with
      | nil => simp
      | cons m2 ms2 =>
          rw [List.map_cons, List.flatten_cons, List.getLast?_append,
            ih (by simp)]
          rfl

lemma splitNl_flattenNl (M : List (List Char)) (h : M ≠ [])
    (hnl : ∀ l ∈ M, '\n' ∉ l) :
    splitNl (((M.map fun l => l ++ ['\n']).flatten).dropLast) = M := by
  induction M with
  | nil => exact absurd rfl h
  | cons m ms ih =>
      cases ms with
      | nil =>
          rw [List.map_cons, List.map_nil, List.flatten_cons, List.flatten_nil,
            List.append_nil, List.dropLast_concat]
          rw [splitNl_single m (hnl m (List.mem_cons_self m []))]
      | cons m2 ms2 =>
          have hJ : ((List.map (fun l => l ++ ['\n']) (m2 :: ms2)).flatten) ≠ [] :=
            flattenNl_ne_nil _ (by simp)
          rw [List.map_cons, List.flatten_cons,
            List.dropLast_append_of_ne_nil _ hJ, List.append_assoc,
            List.singleton_append,
            splitNl_append m _ (hnl m (List.mem_cons_self m _)),
            ih (by simp) (fun l hl => hnl l (List.mem_cons_of_mem m hl))]

/-- Line count of a byte string: split on newline after chomping one final
trailing newline, exactly as `cleanFile` does before transforming. -/
def numLines (s : List Char) : Nat :=
  (splitNl (if s.getLast? = some '\n' then s.dropLast else s)).length

lemma flatten_lines_spec (cfg : Config) (X : List (List Char)) (hX : X ≠ [])
    (hnl : ∀ l ∈ X, '\n' ∉ l) :
    ((X.map fun l => (cleanLine cfg l).1 ++ ['\n']).flatten).getLast? = some '\n' ∧
    splitNl (((X.map fun l => (cleanLine cfg l).1 ++ ['\n']).flatten).dropLast)
      = X.map fun l => (cleanLine cfg l).1 := by
  have hM : (X.map fun l => (cleanLine cfg l).1 ++ ['\n'])
      = ((X.map fun l => (cleanLine cfg l).1).map fun l => l ++ ['\n']) := by
    rw [List.map_map]
    rfl
  have hMne : (X.map fun l => (cleanLine cfg l).1) ≠ [] := by
    intro hc
    exact hX (List.map_eq_nil_iff.mp hc)
  have hMnl : ∀ l ∈ (X.map fun l => (cleanLine cfg l).1), '\n' ∉ l := by
    intro l hl
    rcases List.mem_map.mp hl with ⟨l0, hl0, rfl⟩
    exact cleanLine_no_newline cfg l0 (hnl l0 hl0)
  rw [hM]
  exact ⟨flattenNl_getLast _ hMne, splitNl_flattenNl _ hMne hMnl⟩

/-- C10: a non-empty text file processed with neither `-t` nor `-at` is
rewritten with contents that end in a newline and have exactly as many lines
as the input, both counted by splitting on newline after removing the one
final trailing newline: no transformation adds or removes lines. -/
theorem line_count_preserved (cfg : Config) (fn : String) (fs : FileState)
    (ht : cfg.trailingNewlineFlag = false) (hat : cfg.addTrailingNewlineFlag = false)
    (hreg : fs.regular = true) (hne : fs.contents ≠ [])
    (htext : isText fs.contents = true) :
    ∃ out, (processFile cfg fn fs).write = some out ∧
      out.getLast? = some '\n' ∧ numLines out = numLines fs.contents := by
  have hpf : (processFile cfg fn fs).write = (cleanFile cfg fs.contents).2.2 := by
    rw [processFile, if_neg (by simp [hreg]), if_pos htext]
  have hcf : (cleanFile cfg fs.contents).2.2
      = some (((splitNl (if fs.contents.getLast? = some '\n' then fs.contents.dropLast
          else fs.contents)).map fun l => (cleanLine cfg l).1 ++ ['\n']).flatten) := by
    rw [cleanFile, if_neg hne]
    simp only [hat, ht, Bool.false_eq_true, false_and, if_false]
    rw [foldl_cleanStep]
    simp
  obtain ⟨hlast, hsplit⟩ := flatten_lines_spec cfg
    (splitNl (if fs.contents.getLast? = some '\n' then fs.contents.dropLast
      else fs.contents))
    (splitNl_ne_nil _) (splitNl_no_newline _)
  refine ⟨_, by rw [hpf, hcf], hlast, ?_⟩
  unfold numLines
  rw [if_pos hlast, hsplit, List.length_map]

theorem line_count_preserved_witness :
    ∃ out, (processFile ⟨false, false, 4, false, false, false⟩ "f" ⟨true, ['a']⟩).write
        = some out ∧
      out.getLast? = some '\n' ∧ numLines out = numLines ['a'] :=
  line_count_preserved ⟨false, false, 4, false, false, false⟩ "f" ⟨true, ['a']⟩
    rfl rfl rfl (by decide) (by decide)
